import Mathlib

/-!
Shallow embedding of the side-view helix generator of the NATuG repository
(src/computers/side_view/side_view.py).  Python floats are modelled as exact
rationals; itertools.count iterators are modelled as explicit cursor/step
records; the stitching loop of _z_coords, which mutates the container of
iterators it is building, is modelled as a fold that threads the container.
-/

/-- Strand direction.  The source uses the integer constants UP = 0, DOWN = 1
(from constants.directions; see the docstrings in structures/domains/domain.py:
"Uses the constant 0 for up and 1 for down"). -/
inductive Direction where
  | up
  | down
deriving DecidableEq

instance : Inhabited Direction := ⟨.up⟩

/-- helpers.inverse: `int(not bool(d))` on the 0/1 encoding swaps the two
directions. -/
def inverse : Direction → Direction
  | .up => .down
  | .down => .up

/-- A pair indexed by direction: models the two-element containers `[up, down]`
that the source indexes with the direction constants 0/1. -/
structure DirPair (α : Type) where
  up : α
  down : α
deriving DecidableEq

/-- Container read `p[d]`. -/
def DirPair.dget {α : Type} (p : DirPair α) : Direction → α
  | .up => p.up
  | .down => p.down

/-- Container write `p[d] = v`. -/
def DirPair.dset {α : Type} (p : DirPair α) (d : Direction) (v : α) : DirPair α :=
  match d with
  | .up => ⟨v, p.down⟩
  | .down => ⟨p.up, v⟩

instance {α : Type} [Inhabited α] : Inhabited (DirPair α) := ⟨⟨default, default⟩⟩

/-- One domain as consumed by SideView: `helix_joints[LEFT]`,
`helix_joints[RIGHT]`, `theta_interior_multiple` and `count`. -/
structure Domain where
  theta_interior_multiple : ℤ
  leftJoint : Direction
  rightJoint : Direction
  count : ℕ
deriving DecidableEq

instance : Inhabited Domain := ⟨⟨0, .up, .up, 0⟩⟩

/-- computers.datatypes.NEMid as constructed in SideView.compute
(`NEMid(x_coord, z_coord, angle, junctable=junctable)`). -/
structure NEMid where
  x_coord : ℚ
  z_coord : ℚ
  angle : ℚ
  junctable : Bool
deriving DecidableEq

/-- The SideView generator state (the constructor arguments of
SideView.__init__). -/
structure SideView where
  domains : List Domain
  T : ℚ
  B : ℕ
  H : ℚ
  Z_s : ℚ
  theta_s : ℚ
  theta_b : ℚ
  theta_c : ℚ
deriving DecidableEq

/-- `self.Z_b = (T * H) / B` (line 55 of __init__).  With B = 0 the source
raises ZeroDivisionError already at construction; the total rational division
used here yields 0 instead, so every theorem that depends on this value
assumes 1 <= B. -/
def SideView.Z_b (sv : SideView) : ℚ := sv.T * sv.H / (sv.B : ℚ)

/-- itertools.count(start, step): an arithmetic iterator with a mutable
cursor. -/
structure QCount where
  cur : ℚ
  step : ℚ
deriving DecidableEq

instance : Inhabited QCount := ⟨⟨0, 0⟩⟩

/-- `next(it)`: yield the cursor and advance it by the step. -/
def QCount.next (c : QCount) : ℚ × QCount := (c.cur, ⟨c.cur + c.step, c.step⟩)

/-- The value produced by the (n+1)-st call of next on the iterator. -/
def QCount.nth : QCount → ℕ → ℚ
  | c, 0 => (c.next).1
  | c, n + 1 => (c.next).2.nth n

/-- `itertools.islice(it, 0, n)`: the first n yielded values together with the
advanced iterator. -/
def QCount.take : QCount → ℕ → List ℚ × QCount
  | c, 0 => ([], c)
  | c, n + 1 =>
    let r := (c.next).2.take n
    ((c.next).1 :: r.1, r.2)

/-- Python float modulo `a % m`; the result has the sign of m, so for m = 360
it lands in [0, 360). -/
def pymod (a m : ℚ) : ℚ := a - m * (⌊a / m⌋ : ℤ)

/-- SideView._angles for one domain: the container entry at the zeroed strand
(the left helix joint) is `count(0.0, theta_b)`; the entry at the inverse
direction is `count(0.0 - theta_s, theta_b)`. -/
def SideView.anglesFor (sv : SideView) (dom : Domain) : DirPair QCount :=
  ((default : DirPair QCount).dset dom.leftJoint ⟨0, sv.theta_b⟩).dset
    (inverse dom.leftJoint) ⟨0 - sv.theta_s, sv.theta_b⟩

/-- The x-coordinate mapping in the body of SideView._x_coords: take the angle
modulo 360, divide by the exterior or the interior angle, and offset by the
domain index. -/
def xMap (theta_c : ℚ) (m : ℤ) (index : ℕ) (a : ℚ) : ℚ :=
  let theta_interior : ℚ := (m : ℚ) * theta_c
  let theta_exterior : ℚ := 360 - theta_interior
  let na := pymod a 360
  (if na < theta_exterior then na / theta_exterior else (360 - na) / theta_interior)
    + (index : ℚ)

/-- SideView._x_coords for one (domain, direction): the first B angles mapped
to x coordinates.  This is the list the source then wraps in itertools.cycle,
and also (via the islices at lines 170-177 of _z_coords) exactly the truncated
x tuple that the stitching step reads. -/
def SideView.xRow (sv : SideView) (index : ℕ) (dom : Domain) (d : Direction) : List ℚ :=
  (((sv.anglesFor dom).dget d).take sv.B).1.map
    (xMap sv.theta_c dom.theta_interior_multiple index)

/-- Indexing into itertools.cycle xs for a nonempty list xs. -/
def cycleGet (xs : List ℚ) (n : ℕ) : ℚ := xs.getD (n % xs.length) 0

/-- The downward-normalization loop of SideView._z_coords (lines 214-215:
`while initial_z_coord > 0: initial_z_coord -= offset_interval`).  The
0 < offset conjunct restricts the definition to the regime in which the source
loop terminates; with a non-positive offset and a positive start the source
would loop forever. -/
def normLoop (offset z : ℚ) : ℚ :=
  if h : 0 < offset ∧ 0 < z then normLoop offset (z - offset) else z
termination_by ⌈z / offset⌉.toNat
decreasing_by
  obtain ⟨ho, hz⟩ := h
  have hne : offset ≠ 0 := ne_of_gt ho
  have h1 : (z - offset) / offset = z / offset - 1 := by
    rw [sub_div, div_self hne]
  rw [h1]
  have h2 : (0 : ℚ) < z / offset := div_pos hz ho
  have h3 : (1 : ℤ) ≤ ⌈z / offset⌉ := Int.ceil_pos.mpr h2
  have h4 : ⌈z / offset - 1⌉ = ⌈z / offset⌉ - 1 := by
    exact_mod_cast Int.ceil_sub_int (z / offset) 1
  omega

/-- The full normalization of a seed z (lines 213-216): run the loop, then
decrement by one more offset interval. -/
def normalized (offset z : ℚ) : ℚ := normLoop offset z - offset

/-- Step 1 of one iteration of the stitching loop of SideView._z_coords
(lines 179-209) for the domain at position index, acting on the container
prefix acc built for the domains before it: find the seed z coordinate.  For
index > 0 the islice at lines 195-197 both reads the first B z values of the
previous domain's right-joint iterator and advances that iterator in place;
the functional update of acc records this.  The seed is the previous z value
at the first index of the maximum of the previous domain's x row.  The two
appends of the source (lines 222-223) are dead stores - both entries are
immediately overwritten by the fresh generators of lines 226-233 - and are
therefore not modelled in zStep below. -/
def zSeed (sv : SideView) (acc : List (DirPair QCount)) (index : ℕ) :
    ℚ × List (DirPair QCount) :=
  let prevRight := (sv.domains.getD (index - 1) default).rightJoint
  if index = 0 then (0, acc)
  else
    let prevPair := acc.getD (index - 1) default
    let sliced := (prevPair.dget prevRight).take sv.B
    let acc2 := acc.set (index - 1) (prevPair.dset prevRight sliced.2)
    let xs := sv.xRow (index - 1) (sv.domains.getD (index - 1) default) prevRight
    let mi := xs.findIdx (fun v => v == xs.max?.getD 0)
    (sliced.1.getD mi 0, acc2)

/-- The remainder of one stitching iteration (lines 211-233): normalize the
seed downwards, then install the two fresh generators for this domain. -/
def zStep (sv : SideView) (acc : List (DirPair QCount)) (index : ℕ) (dom : Domain) :
    List (DirPair QCount) :=
  let seeded := zSeed sv acc index
  let initial := normalized (sv.Z_b * (sv.B : ℚ)) seeded.1
  let entry :=
    ((default : DirPair QCount).dset dom.leftJoint ⟨initial, sv.Z_b⟩).dset
      (inverse dom.leftJoint) ⟨initial - sv.Z_s, sv.Z_b⟩
  seeded.2 ++ [entry]

/-- The stitching loop of SideView._z_coords run over the first k domains, in
index order (`for index, domain in enumerate(self.domains)`). -/
def SideView.zUpTo (sv : SideView) : ℕ → List (DirPair QCount)
  | 0 => []
  | k + 1 => zStep sv (sv.zUpTo k) k (sv.domains.getD k default)

/-- SideView._z_coords: the container handed to compute, including the
partially consumed iterators that the stitching islices leave behind. -/
def SideView.zCoords (sv : SideView) : List (DirPair QCount) :=
  sv.zUpTo sv.domains.length

/-- The junctable test of SideView.compute (line 95): |x_coord - index| < 0.001. -/
def junctableFlag (x : ℚ) (index : ℕ) : Bool :=
  decide (|x - (index : ℚ)| < 1 / 1000)

/-- The assembly loop of SideView.compute (lines 79-104) for one
(domain, direction): the zipped triples are consumed one generation index at a
time; a triple with negative z is skipped, and the loop stops once the
remaining number of accepted points reaches zero.  The 0 < step guard on the
skip branch restricts the definition to the regime in which the source loop
terminates (with a non-positive z step and a negative cursor the source would
skip forever). -/
def emitLoop (sv : SideView) (index : ℕ) (dom : Domain) (d : Direction)
    (zc : QCount) (n : ℕ) (remaining : ℕ) : List NEMid :=
  if h : zc.cur < 0 then
    if hs : 0 < zc.step then
      emitLoop sv index dom d (zc.next).2 (n + 1) remaining
    else
      []
  else
    match remaining with
    | 0 => []
    | r + 1 =>
      let x := cycleGet (sv.xRow index dom d) n
      ⟨x, zc.cur, ((sv.anglesFor dom).dget d).nth n, junctableFlag x index⟩ ::
        emitLoop sv index dom d (zc.next).2 (n + 1) r
termination_by (remaining, ⌈-zc.cur / zc.step⌉.toNat)
decreasing_by
  · apply Prod.Lex.right
    have hne : zc.step ≠ 0 := ne_of_gt hs
    show ⌈-(zc.cur + zc.step) / zc.step⌉.toNat < ⌈-zc.cur / zc.step⌉.toNat
    have h1 : -(zc.cur + zc.step) / zc.step = -zc.cur / zc.step - 1 := by
      rw [neg_add, ← sub_eq_add_neg, sub_div, div_self hne]
    rw [h1]
    have h2 : (0 : ℚ) < -zc.cur / zc.step := div_pos (by linarith) hs
    have h3 : (1 : ℤ) ≤ ⌈-zc.cur / zc.step⌉ := Int.ceil_pos.mpr h2
    have h4 : ⌈-zc.cur / zc.step - 1⌉ = ⌈-zc.cur / zc.step⌉ - 1 := by
      exact_mod_cast Int.ceil_sub_int (-zc.cur / zc.step) 1
    omega
  · apply Prod.Lex.left
    omega

/-- One (domain, direction) entry of SideView.compute.  When B = 0 the x cycle
is empty, so the zip of line 80 yields nothing; otherwise the zip runs over the
three infinite iterators.  The angle and x iterators are fresh (compute builds
them with new _angles and _x_coords calls at lines 73-74); the z iterator is
the possibly already-consumed one from the _z_coords container of line 75. -/
def SideView.computeEntry (sv : SideView) (index : ℕ) (dom : Domain) (d : Direction) :
    List NEMid :=
  if sv.B = 0 then []
  else emitLoop sv index dom d ((sv.zCoords.getD index default).dget d) 0 dom.count

/-- SideView.compute: the per-domain, per-direction NEMid container. -/
def SideView.compute (sv : SideView) : List (DirPair (List NEMid)) :=
  (List.range sv.domains.length).map (fun index =>
    let dom := sv.domains.getD index default
    ⟨sv.computeEntry index dom .up, sv.computeEntry index dom .down⟩)

/-- The NEMid that the assembly loop produces at generation index g, for a z
iterator whose state at generation index 0 is zc. -/
def genPoint (sv : SideView) (index : ℕ) (dom : Domain) (d : Direction)
    (zc : QCount) (g : ℕ) : NEMid :=
  let x := cycleGet (sv.xRow index dom d) g
  ⟨x, zc.cur + (g : ℚ) * zc.step, ((sv.anglesFor dom).dget d).nth g, junctableFlag x index⟩

/-- The first index of the maximal value among a domain's first B x
coordinates, as located by lines 199-206 of the source (max then .index). -/
def maxXIdx (sv : SideView) (i : ℕ) (dom : Domain) (d : Direction) : ℕ :=
  (sv.xRow i dom d).findIdx (fun v => v == (sv.xRow i dom d).max?.getD 0)

/-- The number of leading generations with negative z. -/
def skipCount (zc : QCount) : ℕ :=
  if 0 ≤ zc.cur then 0 else ⌈-zc.cur / zc.step⌉.toNat

/-! ### The raise points of the source, for the error-handling claim

The source performs no input validation.  The checked pipeline below models
the operations of the compute call chain that can raise when B >= 1: the two
divisions in _x_coords (Python ZeroDivisionError) and the max over the
previous domain's x tuple in _z_coords (Python ValueError on an empty
sequence); on success it returns the total compute.  Outside that regime the
model is silent: with B = 0 the source raises ZeroDivisionError already in
__init__ at (T * H) / B (line 55), which the total division of SideView.Z_b
does not represent, and a negative B would raise ValueError from the islice at
line 172, unrepresentable here since B is a natural number.  With a
non-positive Z_b the source can instead fail to terminate.  The success
theorems therefore assume 1 <= B and 0 < Z_b. -/

/-- Python division: raises ZeroDivisionError on a zero divisor. -/
def divE (a b : ℚ) : Except String ℚ :=
  if b = 0 then .error "ZeroDivisionError" else .ok (a / b)

/-- The x mapping of _x_coords with Python's division checks. -/
def xMapE (theta_c : ℚ) (m : ℤ) (index : ℕ) (a : ℚ) : Except String ℚ :=
  let theta_interior : ℚ := (m : ℚ) * theta_c
  let theta_exterior : ℚ := 360 - theta_interior
  let na := pymod a 360
  if na < theta_exterior then
    (divE na theta_exterior).map (fun q => q + (index : ℚ))
  else
    (divE (360 - na) theta_interior).map (fun q => q + (index : ℚ))

/-- One (domain, direction) row of _x_coords with checks. -/
def xRowE (sv : SideView) (index : ℕ) (dom : Domain) (d : Direction) :
    Except String (List ℚ) :=
  (((sv.anglesFor dom).dget d).take sv.B).1.mapM
    (xMapE sv.theta_c dom.theta_interior_multiple index)

/-- The whole of _x_coords (lines 129-164) with checks. -/
def xCoordsE (sv : SideView) : Except String (List (DirPair (List ℚ))) :=
  (List.range sv.domains.length).mapM (fun index => do
    let u ← xRowE sv index (sv.domains.getD index default) .up
    let dn ← xRowE sv index (sv.domains.getD index default) .down
    pure (⟨u, dn⟩ : DirPair (List ℚ)))

/-- Python max of a sequence: raises ValueError on an empty sequence. -/
def maxE (xs : List ℚ) : Except String ℚ :=
  match xs with
  | [] => .error "ValueError: max() arg is an empty sequence"
  | _ => .ok (xs.max?.getD 0)

/-- One stitching iteration with checks: validates the one operation of zSeed
that can raise (the max at line 201), then delegates to the unchecked step. -/
def zStepE (sv : SideView) (acc : List (DirPair QCount)) (index : ℕ) (dom : Domain) :
    Except String (List (DirPair QCount)) :=
  if index = 0 then .ok (zStep sv acc index dom)
  else do
    let _m ← maxE (sv.xRow (index - 1) (sv.domains.getD (index - 1) default)
      (sv.domains.getD (index - 1) default).rightJoint)
    pure (zStep sv acc index dom)

/-- The stitching loop with checks. -/
def zUpToE (sv : SideView) : ℕ → Except String (List (DirPair QCount))
  | 0 => .ok []
  | k + 1 => do
    let acc ← zUpToE sv k
    zStepE sv acc k (sv.domains.getD k default)

/-- SideView.compute with the raise points reachable for B >= 1 modelled:
compute runs _angles (no raises), _x_coords (division checks, line 74), then
_z_coords (which reruns the same division checks at line 167 and then
stitches); the assembly loop itself cannot raise.  The B = 0 ZeroDivisionError
of __init__ and the negative-B islice ValueError lie outside this model (see
the section comment above). -/
def computeE (sv : SideView) : Except String (List (DirPair (List NEMid))) := do
  let _xs ← xCoordsE sv
  let _zs ← zUpToE sv sv.domains.length
  pure sv.compute

/-- A one-domain concrete configuration: interior angle 2 * 30 = 60 degrees,
both joints up, count 1, B = 1, T = 1, H = 1 (so Z_b = 1 and the period
Z_b * B = 1), Z_s = 1/2, theta_s = 1/2, theta_b = 10, theta_c = 30. -/
def cfg1 : SideView := ⟨[⟨2, .up, .up, 1⟩], 1, 1, 1, 1/2, 1/2, 10, 30⟩

/-- A two-domain concrete configuration with the same profile as cfg1. -/
def cfg2 : SideView := ⟨[⟨2, .up, .up, 1⟩, ⟨2, .up, .up, 1⟩], 1, 1, 1, 1/2, 1/2, 10, 30⟩

/-- A degenerate concrete configuration: theta_c = 360 and multiple 1, so the
interior angle is 360 and the exterior angle is 0 - invalid input according to
the specification. -/
def cfgDeg : SideView := ⟨[⟨1, .up, .up, 1⟩], 1, 1, 1, 1/2, 1/2, 10, 360⟩


/-! ### Basic iterator and container lemmas -/

/-- Closed form for the n-th value of an itertools.count iterator. -/
lemma QCount.nth_eq (c : QCount) (n : ℕ) : c.nth n = c.cur + (n : ℚ) * c.step := by
  induction n generalizing c with
  | zero => simp [QCount.nth, QCount.next]
  | succ n ih =>
    rw [QCount.nth, ih]
    simp [QCount.next]
    push_cast
    ring

/-- The islice values are the first n iterator values. -/
lemma QCount.take_fst (c : QCount) (n : ℕ) :
    (c.take n).1 = (List.range n).map c.nth := by
  induction n generalizing c with
  | zero => simp [QCount.take]
  | succ n ih =>
    rw [QCount.take]
    simp only [ih, List.range_succ_eq_map, List.map_cons, List.map_map]
    refine congrArg₂ _ rfl ?_
    apply List.map_congr_left
    intro a _
    simp [Function.comp, QCount.nth]

/-- After an islice of length n the iterator has advanced by n steps. -/
lemma QCount.take_snd (c : QCount) (n : ℕ) :
    (c.take n).2 = ⟨c.cur + (n : ℚ) * c.step, c.step⟩ := by
  induction n generalizing c with
  | zero => simp [QCount.take]
  | succ n ih =>
    rw [QCount.take, ih]
    simp [QCount.next]
    push_cast
    ring

/-- Reading a direction-indexed container that was written at the left joint
and at its inverse. -/
lemma dget_build {α : Type} [Inhabited α] (l d : Direction) (a b : α) :
    ((((default : DirPair α).dset l a).dset (inverse l) b).dget d) =
      if d = l then a else b := by
  cases l <;> cases d <;> simp [DirPair.dget, DirPair.dset, inverse]

/-- The two directions are distinct exactly when one is the inverse of the
other. -/
lemma ne_iff_eq_inverse (d l : Direction) : d ≠ l ↔ d = inverse l := by
  cases l <;> cases d <;> simp [inverse]

/-- Python float modulo by a positive modulus is nonnegative. -/
lemma pymod_nonneg (a m : ℚ) (hm : 0 < m) : 0 ≤ pymod a m := by
  rw [pymod]
  have h := Int.floor_le (a / m)
  have h2 : m * (⌊a / m⌋ : ℚ) ≤ m * (a / m) := by
    exact mul_le_mul_of_nonneg_left h (le_of_lt hm)
  rw [mul_div_cancel₀ a (ne_of_gt hm)] at h2
  linarith

/-- Python float modulo by a positive modulus is below the modulus. -/
lemma pymod_lt (a m : ℚ) (hm : 0 < m) : pymod a m < m := by
  rw [pymod]
  have h := Int.lt_floor_add_one (a / m)
  have h2 : m * (a / m) < m * ((⌊a / m⌋ : ℚ) + 1) := by
    exact mul_lt_mul_of_pos_left h hm
  rw [mul_div_cancel₀ a (ne_of_gt hm)] at h2
  linarith

/-- Each x row materializes exactly B values. -/
lemma xRow_length (sv : SideView) (index : ℕ) (dom : Domain) (d : Direction) :
    (sv.xRow index dom d).length = sv.B := by
  rw [SideView.xRow, List.length_map, QCount.take_fst, List.length_map,
    List.length_range]

/-- The stitching fold adds one container entry per processed domain. -/
lemma zUpTo_length (sv : SideView) (k : ℕ) : (sv.zUpTo k).length = k := by
  induction k with
  | zero => rfl
  | succ k ih =>
    have h2 : (zSeed sv (sv.zUpTo k) k).2.length = k := by
      rw [zSeed]
      by_cases h : k = 0 <;> simp [h, ih, SideView.zUpTo]
    rw [SideView.zUpTo, zStep]
    show ((zSeed sv (sv.zUpTo k) k).2 ++ [_]).length = k + 1
    rw [List.length_append, h2]
    rfl

/-- The normalization loop only ever subtracts whole offsets. -/
lemma normLoop_exists (offset z : ℚ) :
    ∃ j : ℕ, normLoop offset z = z - (j : ℚ) * offset := by
  refine normLoop.induct offset
    (fun w => ∃ j : ℕ, normLoop offset w = w - (j : ℚ) * offset)
    (fun w h ih => ?_) (fun w h => ?_) z
  · obtain ⟨j, hj⟩ := ih
    refine ⟨j + 1, ?_⟩
    rw [normLoop, dif_pos h, hj]
    push_cast
    ring
  · exact ⟨0, by rw [normLoop, dif_neg h]; push_cast; ring⟩

/-- When the offset is positive the normalization loop exits at or below
zero. -/
lemma normLoop_nonpos (offset z : ℚ) (ho : 0 < offset) : normLoop offset z ≤ 0 := by
  refine normLoop.induct offset (fun w => normLoop offset w ≤ 0)
    (fun w h ih => ?_) (fun w h => ?_) z
  · show normLoop offset w ≤ 0
    rw [normLoop, dif_pos h]
    exact ih
  · show normLoop offset w ≤ 0
    rw [normLoop, dif_neg h]
    push_neg at h
    exact h ho

/-- getD into the left part of an append. -/
lemma getD_append_of_lt {α : Type} (l l2 : List α) (i : ℕ) (dflt : α)
    (h : i < l.length) : (l ++ l2).getD i dflt = l.getD i dflt := by
  rw [List.getD_eq_getElem?_getD, List.getD_eq_getElem?_getD,
    List.getElem?_append_left h]

/-- getD at the appended element. -/
lemma getD_concat_length {α : Type} (l : List α) (a dflt : α) :
    (l ++ [a]).getD l.length dflt = a := by
  rw [List.getD_eq_getElem?_getD, List.getElem?_concat_length]
  rfl

/-- getD at the appended element, phrased with a length hypothesis. -/
lemma getD_concat_of_length {α : Type} (l : List α) (a dflt : α) (i : ℕ)
    (h : l.length = i) : (l ++ [a]).getD i dflt = a := by
  subst h
  exact getD_concat_length l a dflt

/-- getD after a set at the same position. -/
lemma getD_set_self {α : Type} (l : List α) (i : ℕ) (v dflt : α)
    (h : i < l.length) : (l.set i v).getD i dflt = v := by
  rw [List.getD_eq_getElem?_getD, List.getElem?_set_self h]
  rfl

/-- getD after a set at a different position. -/
lemma getD_set_ne {α : Type} (l : List α) (i j : ℕ) (v dflt : α)
    (h : i ≠ j) : (l.set i v).getD j dflt = l.getD j dflt := by
  rw [List.getD_eq_getElem?_getD, List.getD_eq_getElem?_getD,
    List.getElem?_set_ne h]

/-! ### The shape of the stitched z container

The invariant of the stitching fold: after k domains have been processed, the
container entry of domain i in direction d is the iterator created when domain
i was stitched, advanced by B steps exactly when a later domain has already
consumed it - that is, when some domain i+1 < k exists and d is domain i's
right helix joint. -/

/-- Writing then reading the same direction. -/
lemma dget_dset_self {α : Type} (p : DirPair α) (d : Direction) (v : α) :
    (p.dset d v).dget d = v := by
  cases d <;> rfl

/-- Writing one direction does not affect the other. -/
lemma dget_dset_ne {α : Type} (p : DirPair α) (d e : Direction) (v : α)
    (h : e ≠ d) : (p.dset d v).dget e = p.dget e := by
  cases d <;> cases e <;> simp_all [DirPair.dget, DirPair.dset]

/-- The seed computation only rewrites entries of the container in place. -/
lemma zSeed_snd_length (sv : SideView) (acc : List (DirPair QCount)) (index : ℕ) :
    (zSeed sv acc index).2.length = acc.length := by
  rw [zSeed]
  by_cases h : index = 0 <;> simp [h]

/-- What the seed computation does to the container: when index > 0 it
advances the iterator of domain index-1 in the direction of that domain's
right helix joint by B steps, and leaves every other entry unchanged. -/
lemma zSeed_snd_getD (sv : SideView) (acc : List (DirPair QCount)) (index i : ℕ)
    (d : Direction) (hlen : acc.length = index) (hi : i < index) :
    ((zSeed sv acc index).2.getD i default).dget d =
      if i = index - 1 ∧ d = (sv.domains.getD (index - 1) default).rightJoint then
        ⟨((acc.getD i default).dget d).cur +
          (sv.B : ℚ) * ((acc.getD i default).dget d).step,
          ((acc.getD i default).dget d).step⟩
      else (acc.getD i default).dget d := by
  have h0 : index ≠ 0 := by omega
  rw [zSeed]
  simp only [h0, if_false, ite_false]
  by_cases hprev : i = index - 1
  · subst hprev
    rw [getD_set_self _ _ _ _ (by omega)]
    by_cases hd : d = (sv.domains.getD (index - 1) default).rightJoint
    · subst hd
      rw [dget_dset_self, QCount.take_snd, if_pos ⟨rfl, rfl⟩]
    · rw [dget_dset_ne _ _ _ _ hd, if_neg (by rintro ⟨h1, h2⟩; exact hd h2)]
  · rw [getD_set_ne _ _ _ _ _ (fun hh => hprev hh.symm),
      if_neg (by rintro ⟨h1, h2⟩; exact hprev h1)]

/-- The container entry installed for the domain stitched at position index:
the left-joint direction starts at the normalized seed, the other direction
Z_s below it, and both step by Z_b. -/
lemma zStep_getD_self (sv : SideView) (acc : List (DirPair QCount)) (index : ℕ)
    (dom : Domain) (d : Direction) (hlen : acc.length = index) :
    ((zStep sv acc index dom).getD index default).dget d =
      if d = dom.leftJoint then
        ⟨normalized (sv.Z_b * (sv.B : ℚ)) (zSeed sv acc index).1, sv.Z_b⟩
      else
        ⟨normalized (sv.Z_b * (sv.B : ℚ)) (zSeed sv acc index).1 - sv.Z_s, sv.Z_b⟩ := by
  have hl : (zSeed sv acc index).2.length = index := by
    rw [zSeed_snd_length, hlen]
  rw [zStep]
  show (((zSeed sv acc index).2 ++ [_]).getD index default).dget d = _
  rw [getD_concat_of_length _ _ _ _ hl, dget_build]

/-- Characterization of the z-coordinate container after k stitching steps:
entry i in direction d is the iterator installed when domain i was stitched,
advanced by B steps exactly when a later domain has consumed it (i + 1 < k and
d is domain i's right helix joint). -/
lemma zUpTo_getD (sv : SideView) (k i : ℕ) (d : Direction) (hik : i < k) :
    ((sv.zUpTo k).getD i default).dget d =
      ⟨(((sv.zUpTo (i + 1)).getD i default).dget d).cur +
        (if i + 1 < k ∧ d = (sv.domains.getD i default).rightJoint then
          (sv.B : ℚ) * sv.Z_b else 0),
        sv.Z_b⟩ := by
  induction k with
  | zero => omega
  | succ k ih =>
    have hlen : (sv.zUpTo k).length = k := zUpTo_length sv k
    rcases Nat.lt_succ_iff_lt_or_eq.mp hik with hik2 | hik2
    · -- i < k : the step for domain k possibly consumes the entry of domain k-1
      rw [SideView.zUpTo, zStep]
      show ((((zSeed sv (sv.zUpTo k) k).2 ++ [_]).getD i default).dget d) = _
      rw [getD_append_of_lt _ _ _ _ (by rw [zSeed_snd_length, hlen]; exact hik2),
        zSeed_snd_getD sv _ k i d hlen hik2, ih hik2]
      by_cases hc : i = k - 1 ∧ d = (sv.domains.getD (k - 1) default).rightJoint
      · obtain ⟨hc1, hc2⟩ := hc
        subst hc1
        have hne : ¬(k - 1 + 1 < k ∧ d = (sv.domains.getD (k - 1) default).rightJoint) := by
          rintro ⟨hh, -⟩; omega
        have hpos : k - 1 + 1 < k + 1 ∧ d = (sv.domains.getD (k - 1) default).rightJoint :=
          ⟨by omega, hc2⟩
        rw [if_pos ⟨rfl, hc2⟩, if_neg hne, if_pos hpos]
        dsimp only
        rw [QCount.mk.injEq]
        exact ⟨by ring, rfl⟩
      · rw [if_neg hc]
        have : (i + 1 < k ∧ d = (sv.domains.getD i default).rightJoint) ↔
            (i + 1 < k + 1 ∧ d = (sv.domains.getD i default).rightJoint) := by
          constructor
          · rintro ⟨h1, h2⟩; exact ⟨by omega, h2⟩
          · rintro ⟨h1, h2⟩
            refine ⟨?_, h2⟩
            rcases Nat.lt_succ_iff_lt_or_eq.mp h1 with hh | hh
            · exact hh
            · have hi : i = k - 1 := by omega
              exact absurd ⟨hi, by rw [← hi]; exact h2⟩ hc
        rw [if_congr this rfl rfl]
    · -- i = k : the freshly appended entry
      subst hik2
      have hflag : ¬(i + 1 < i + 1 ∧ d = (sv.domains.getD i default).rightJoint) := by
        rintro ⟨hh, -⟩; omega
      rw [if_neg hflag]
      show ((sv.zUpTo (i + 1)).getD i default).dget d = _
      rw [SideView.zUpTo, zStep_getD_self sv _ i _ d hlen]
      by_cases hd : d = (sv.domains.getD i default).leftJoint
      · rw [if_pos hd]
        dsimp only
        rw [QCount.mk.injEq]
        exact ⟨by ring, rfl⟩
      · rw [if_neg hd]
        dsimp only
        rw [QCount.mk.injEq]
        exact ⟨by ring, rfl⟩

/-! ### The shape of the assembly loop output -/

/-- Unfolding: a negative z triple is skipped. -/
lemma emitLoop_skip (sv : SideView) (index : ℕ) (dom : Domain) (d : Direction)
    (zc : QCount) (n rem : ℕ) (h : zc.cur < 0) (hs : 0 < zc.step) :
    emitLoop sv index dom d zc n rem =
      emitLoop sv index dom d (zc.next).2 (n + 1) rem := by
  rw [emitLoop.eq_def]
  rw [dif_pos h, dif_pos hs]

/-- Unfolding: with a nonnegative z and no points remaining, the loop stops. -/
lemma emitLoop_zero (sv : SideView) (index : ℕ) (dom : Domain) (d : Direction)
    (zc : QCount) (n : ℕ) (h : ¬zc.cur < 0) :
    emitLoop sv index dom d zc n 0 = [] := by
  rw [emitLoop.eq_def]
  rw [dif_neg h]

/-- Unfolding: with a nonnegative z and points remaining, the loop emits. -/
lemma emitLoop_accept (sv : SideView) (index : ℕ) (dom : Domain) (d : Direction)
    (zc : QCount) (n r : ℕ) (h : ¬zc.cur < 0) :
    emitLoop sv index dom d zc n (r + 1) =
      ⟨cycleGet (sv.xRow index dom d) n, zc.cur,
        ((sv.anglesFor dom).dget d).nth n,
        junctableFlag (cycleGet (sv.xRow index dom d) n) index⟩ ::
        emitLoop sv index dom d (zc.next).2 (n + 1) r := by
  rw [emitLoop.eq_def]
  rw [dif_neg h]

/-- Once the z cursor is nonnegative the loop accepts every triple: the output
is the next rem generated points. -/
lemma emitLoop_of_nonneg (sv : SideView) (index : ℕ) (dom : Domain) (d : Direction) :
    ∀ (rem : ℕ) (zc : QCount) (n : ℕ), 0 ≤ zc.cur → 0 ≤ zc.step →
      emitLoop sv index dom d zc n rem = (List.range rem).map (fun k =>
        ⟨cycleGet (sv.xRow index dom d) (n + k), zc.cur + (k : ℚ) * zc.step,
          ((sv.anglesFor dom).dget d).nth (n + k),
          junctableFlag (cycleGet (sv.xRow index dom d) (n + k)) index⟩) := by
  intro rem
  induction rem with
  | zero =>
    intro zc n hc hstep
    rw [emitLoop_zero sv index dom d zc n (not_lt.mpr hc)]
    rfl
  | succ r ih =>
    intro zc n hc hstep
    rw [emitLoop_accept sv index dom d zc n r (not_lt.mpr hc)]
    have hc2 : 0 ≤ ((zc.next).2).cur := by
      show 0 ≤ zc.cur + zc.step
      linarith
    rw [ih (zc.next).2 (n + 1) hc2 hstep]
    rw [List.range_succ_eq_map, List.map_cons, List.map_map]
    refine congrArg₂ _ ?_ (List.map_congr_left ?_)
    · rw [NEMid.mk.injEq]
      refine ⟨by rw [Nat.add_zero], by push_cast; ring,
        by rw [Nat.add_zero], by rw [Nat.add_zero]⟩
    · intro k _
      dsimp only [Function.comp_apply]
      rw [NEMid.mk.injEq]
      have h1 : n + 1 + k = n + (k + 1) := by omega
      refine ⟨by rw [h1], ?_, by rw [h1], by rw [h1]⟩
      show (zc.cur + zc.step) + (k : ℚ) * zc.step =
        zc.cur + ((k + 1 : ℕ) : ℚ) * zc.step
      push_cast
      ring

/-- Skipping N generations advances the z cursor by N steps and the generation
index by N. -/
lemma emitLoop_shift (sv : SideView) (index : ℕ) (dom : Domain) (d : Direction) :
    ∀ (N : ℕ) (zc : QCount) (n rem : ℕ), 0 < zc.step →
      (∀ j < N, zc.cur + (j : ℚ) * zc.step < 0) →
      emitLoop sv index dom d zc n rem =
        emitLoop sv index dom d ⟨zc.cur + (N : ℚ) * zc.step, zc.step⟩ (n + N) rem := by
  intro N
  induction N with
  | zero =>
    intro zc n rem hs hN
    have : (⟨zc.cur + ((0 : ℕ) : ℚ) * zc.step, zc.step⟩ : QCount) = zc := by
      rw [QCount.mk.injEq]
      constructor
      · push_cast; ring
      · rfl
    rw [this, Nat.add_zero]
  | succ N ih =>
    intro zc n rem hs hN
    have h0 : zc.cur < 0 := by
      have := hN 0 (by omega)
      simpa using this
    rw [emitLoop_skip sv index dom d zc n rem h0 hs]
    rw [ih (zc.next).2 (n + 1) rem hs ?_]
    · refine congrArg₂ (fun a b => emitLoop sv index dom d a b rem) ?_ (by omega)
      show (⟨(zc.cur + zc.step) + (N : ℚ) * zc.step, zc.step⟩ : QCount) = _
      rw [QCount.mk.injEq]
      refine ⟨by push_cast; ring, rfl⟩
    · intro j hj
      show zc.cur + zc.step + (j : ℚ) * zc.step < 0
      have := hN (j + 1) (by omega)
      push_cast at this ⊢
      linarith

/-- Every generation before skipCount has negative z. -/
lemma skipCount_lt (zc : QCount) (hs : 0 < zc.step) (j : ℕ) (hj : j < skipCount zc) :
    zc.cur + (j : ℚ) * zc.step < 0 := by
  rw [skipCount] at hj
  by_cases hc : 0 ≤ zc.cur
  · rw [if_pos hc] at hj; omega
  · rw [if_neg hc] at hj
    push_neg at hc
    have hx : (0 : ℚ) < -zc.cur / zc.step := div_pos (by linarith) hs
    have h1 : (j : ℤ) < ⌈-zc.cur / zc.step⌉ := by
      have := hj
      omega
    have h2 : (j : ℚ) < -zc.cur / zc.step := by
      have h3 : ((j : ℤ) : ℚ) ≤ ⌈-zc.cur / zc.step⌉ - 1 := by
        have : (j : ℤ) ≤ ⌈-zc.cur / zc.step⌉ - 1 := by omega
        exact_mod_cast this
      have h4 : (⌈-zc.cur / zc.step⌉ : ℚ) - 1 < -zc.cur / zc.step := by
        have := Int.ceil_lt_add_one (-zc.cur / zc.step)
        linarith
      push_cast at h3
      linarith
    have h5 : (j : ℚ) * zc.step < -zc.cur := (lt_div_iff hs).mp h2
    linarith

/-- At generation skipCount the z value is nonnegative. -/
lemma skipCount_nonneg (zc : QCount) (hs : 0 < zc.step) :
    0 ≤ zc.cur + ((skipCount zc : ℕ) : ℚ) * zc.step := by
  rw [skipCount]
  by_cases hc : 0 ≤ zc.cur
  · rw [if_pos hc]
    push_cast
    linarith
  · rw [if_neg hc]
    push_neg at hc
    have hx : (0 : ℚ) < -zc.cur / zc.step := div_pos (by linarith) hs
    have h1 : -zc.cur / zc.step ≤ (⌈-zc.cur / zc.step⌉ : ℚ) := Int.le_ceil _
    have h2 : (⌈-zc.cur / zc.step⌉ : ℚ) = ((⌈-zc.cur / zc.step⌉.toNat : ℕ) : ℚ) := by
      have h0 : (0 : ℤ) ≤ ⌈-zc.cur / zc.step⌉ := Int.ceil_nonneg (le_of_lt hx)
      exact_mod_cast (Int.toNat_of_nonneg h0).symm
    have h3 : -zc.cur / zc.step ≤ ((⌈-zc.cur / zc.step⌉.toNat : ℕ) : ℚ) := by
      rw [← h2]; exact h1
    have h4 : -zc.cur ≤ ((⌈-zc.cur / zc.step⌉.toNat : ℕ) : ℚ) * zc.step :=
      (div_le_iff hs).mp h3
    linarith

/-- The z iterator handed to the assembly loop always steps by Z_b. -/
lemma zCoords_step (sv : SideView) (index : ℕ) (d : Direction)
    (hidx : index < sv.domains.length) :
    ((sv.zCoords.getD index default).dget d).step = sv.Z_b := by
  rw [SideView.zCoords, zUpTo_getD sv _ index d hidx]

/-- Full characterization of one assembly entry: some number N of leading
generations is skipped because their z is negative, generation N has
nonnegative z, and the output is the next count generated points. -/
lemma computeEntry_shape (sv : SideView) (index : ℕ) (dom : Domain) (d : Direction)
    (hB : 1 ≤ sv.B) (hZ : 0 < sv.Z_b) (hidx : index < sv.domains.length) :
    ∃ N : ℕ,
      (∀ j < N,
        ((sv.zCoords.getD index default).dget d).cur +
          (j : ℚ) * ((sv.zCoords.getD index default).dget d).step < 0) ∧
      0 ≤ ((sv.zCoords.getD index default).dget d).cur +
          (N : ℚ) * ((sv.zCoords.getD index default).dget d).step ∧
      sv.computeEntry index dom d =
        (List.range dom.count).map
          (fun k => genPoint sv index dom d ((sv.zCoords.getD index default).dget d) (N + k)) := by
  set zc := (sv.zCoords.getD index default).dget d with hzc
  have hstep : zc.step = sv.Z_b := zCoords_step sv index d hidx
  have hs : 0 < zc.step := by rw [hstep]; exact hZ
  refine ⟨skipCount zc, fun j hj => skipCount_lt zc hs j hj, skipCount_nonneg zc hs, ?_⟩
  rw [SideView.computeEntry, if_neg (by omega)]
  rw [emitLoop_shift sv index dom d (skipCount zc) zc 0 dom.count hs
    (fun j hj => skipCount_lt zc hs j hj)]
  rw [emitLoop_of_nonneg sv index dom d dom.count
    ⟨zc.cur + ((skipCount zc : ℕ) : ℚ) * zc.step, zc.step⟩ (0 + skipCount zc)
    (skipCount_nonneg zc hs) (le_of_lt hs)]
  apply List.map_congr_left
  intro k _
  rw [genPoint, NEMid.mk.injEq]
  have h1 : 0 + skipCount zc + k = skipCount zc + k := by omega
  refine ⟨by rw [h1], ?_, by rw [h1], by rw [h1]⟩
  show (zc.cur + ((skipCount zc : ℕ) : ℚ) * zc.step) + (k : ℚ) * zc.step =
    zc.cur + ((skipCount zc + k : ℕ) : ℚ) * zc.step
  push_cast
  ring

/-- C3: with Z_b > 0 and B >= 1, the assembly step for every domain and
direction skips exactly the leading generations with negative z, emits exactly
domain.count points in increasing generation order, each with nonnegative z,
and feeding the accepted count back in as the count input reproduces the same
number of accepted points. -/
theorem compute_skips_negatives_and_emits_count (sv : SideView) (index : ℕ)
    (dom : Domain) (d : Direction) (hB : 1 ≤ sv.B) (hZ : 0 < sv.Z_b)
    (hidx : index < sv.domains.length) :
    ∃ N : ℕ,
      (∀ j < N,
        (genPoint sv index dom d ((sv.zCoords.getD index default).dget d) j).z_coord < 0) ∧
      sv.computeEntry index dom d =
        (List.range dom.count).map
          (fun k => genPoint sv index dom d ((sv.zCoords.getD index default).dget d) (N + k)) ∧
      (sv.computeEntry index dom d).length = dom.count ∧
      (∀ p ∈ sv.computeEntry index dom d, 0 ≤ p.z_coord) ∧
      (sv.computeEntry index
        ⟨dom.theta_interior_multiple, dom.leftJoint, dom.rightJoint,
          (sv.computeEntry index dom d).length⟩ d).length =
        (sv.computeEntry index dom d).length := by
  obtain ⟨N, hskip, hnn, hmap⟩ := computeEntry_shape sv index dom d hB hZ hidx
  set zc := (sv.zCoords.getD index default).dget d with hzc
  have hstep : 0 < zc.step := by
    rw [zCoords_step sv index d hidx]; exact hZ
  have hlen : (sv.computeEntry index dom d).length = dom.count := by
    rw [hmap, List.length_map, List.length_range]
  refine ⟨N, fun j hj => hskip j hj, hmap, hlen, ?_, ?_⟩
  · intro p hp
    rw [hmap] at hp
    obtain ⟨k, hk, hpk⟩ := List.mem_map.mp hp
    rw [← hpk]
    show 0 ≤ zc.cur + ((N + k : ℕ) : ℚ) * zc.step
    have hk0 : (0 : ℚ) ≤ (k : ℚ) * zc.step := by positivity
    have : zc.cur + ((N + k : ℕ) : ℚ) * zc.step =
        (zc.cur + (N : ℚ) * zc.step) + (k : ℚ) * zc.step := by push_cast; ring
    rw [this]
    linarith
  · obtain ⟨N2, hskip2, hnn2, hmap2⟩ := computeEntry_shape sv index
      ⟨dom.theta_interior_multiple, dom.leftJoint, dom.rightJoint,
        (sv.computeEntry index dom d).length⟩ d hB hZ hidx
    rw [hmap2, List.length_map, List.length_range]

/-- C10: with Z_b > 0 and B >= 1 both loops terminate with their intended
results: the downward normalization reaches, after finitely many subtractions
of the positive period Z_b * B, a value at or below zero, and the assembly
loop accepts exactly domain.count points after skipping finitely many
negative-z generations. -/
theorem compute_terminates (sv : SideView) (hB : 1 ≤ sv.B) (hZ : 0 < sv.Z_b) :
    (∀ z : ℚ, ∃ j : ℕ,
      normLoop (sv.Z_b * (sv.B : ℚ)) z = z - (j : ℚ) * (sv.Z_b * (sv.B : ℚ)) ∧
      normLoop (sv.Z_b * (sv.B : ℚ)) z ≤ 0) ∧
    (∀ (index : ℕ) (dom : Domain) (d : Direction), index < sv.domains.length →
      (sv.computeEntry index dom d).length = dom.count) := by
  have hoff : 0 < sv.Z_b * (sv.B : ℚ) := by
    have hb : (0 : ℚ) < (sv.B : ℚ) := by exact_mod_cast Nat.pos_of_ne_zero (by omega)
    positivity
  constructor
  · intro z
    obtain ⟨j, hj⟩ := normLoop_exists (sv.Z_b * (sv.B : ℚ)) z
    exact ⟨j, hj, normLoop_nonpos _ z hoff⟩
  · intro index dom d hidx
    obtain ⟨N, hskip, hnn, hmap⟩ := computeEntry_shape sv index dom d hB hZ hidx
    rw [hmap, List.length_map, List.length_range]

/-- C7: for every domain and index n, the angle iterator of the direction
equal to the domain's left helix joint yields 0 + n * theta_b, and the one of
the opposite direction yields (0 - theta_s) + n * theta_b; the closed form
depends only on theta_b, theta_s and the left joint. -/
theorem angles_closed_form (sv : SideView) (dom : Domain) (d : Direction) (n : ℕ) :
    ((sv.anglesFor dom).dget d).nth n =
      (if d = dom.leftJoint then 0 else 0 - sv.theta_s) + (n : ℚ) * sv.theta_b := by
  rw [QCount.nth_eq, SideView.anglesFor, dget_build]
  by_cases hd : d = dom.leftJoint
  · rw [if_pos hd, if_pos hd]
  · rw [if_neg hd, if_neg hd]

/-- The x mapping stays inside the domain's unit interval as soon as the
interior angle is strictly between 0 and 360 degrees. -/
lemma xMap_mem_unit (theta_c : ℚ) (m : ℤ) (index : ℕ) (a : ℚ)
    (hint : 0 < (m : ℚ) * theta_c) (hint2 : (m : ℚ) * theta_c < 360) :
    (index : ℚ) ≤ xMap theta_c m index a ∧ xMap theta_c m index a ≤ (index : ℚ) + 1 := by
  have h0 : 0 ≤ pymod a 360 := pymod_nonneg a 360 (by norm_num)
  have h1 : pymod a 360 < 360 := pymod_lt a 360 (by norm_num)
  rw [xMap]
  set na := pymod a 360 with hna
  have hext : (0 : ℚ) < 360 - (m : ℚ) * theta_c := by linarith
  by_cases hc : na < 360 - (m : ℚ) * theta_c
  · rw [if_pos hc]
    have hb0 : 0 ≤ na / (360 - (m : ℚ) * theta_c) := div_nonneg h0 (le_of_lt hext)
    have hb1 : na / (360 - (m : ℚ) * theta_c) ≤ 1 :=
      (div_le_one hext).mpr (le_of_lt hc)
    constructor <;> linarith
  · rw [if_neg hc]
    push_neg at hc
    have hb0 : 0 ≤ (360 - na) / ((m : ℚ) * theta_c) :=
      div_nonneg (by linarith) (le_of_lt hint)
    have hb1 : (360 - na) / ((m : ℚ) * theta_c) ≤ 1 :=
      (div_le_one hint).mpr (by linarith)
    constructor <;> linarith

/-- C4: whenever a domain's interior angle theta_m_multiple * theta_c lies
strictly between 0 and 360 degrees, every x produced by the x mapping lies in
the closed interval [index, index + 1] - for every input angle, and hence for
every materialized x row value in either strand direction. -/
theorem x_coords_in_unit_interval (sv : SideView) (index : ℕ) (dom : Domain)
    (hint : 0 < (dom.theta_interior_multiple : ℚ) * sv.theta_c)
    (hint2 : (dom.theta_interior_multiple : ℚ) * sv.theta_c < 360) :
    (∀ a : ℚ,
      (index : ℚ) ≤ xMap sv.theta_c dom.theta_interior_multiple index a ∧
      xMap sv.theta_c dom.theta_interior_multiple index a ≤ (index : ℚ) + 1) ∧
    (∀ d : Direction, ∀ x ∈ sv.xRow index dom d,
      (index : ℚ) ≤ x ∧ x ≤ (index : ℚ) + 1) := by
  refine ⟨fun a => xMap_mem_unit sv.theta_c dom.theta_interior_multiple index a hint hint2,
    fun d x hx => ?_⟩
  rw [SideView.xRow] at hx
  obtain ⟨a, ha, hax⟩ := List.mem_map.mp hx
  rw [← hax]
  exact xMap_mem_unit sv.theta_c dom.theta_interior_multiple index a hint hint2

/-- C5: the junctable test |x - index| < 0.001 computed by the source decides
exactly the condition "x rounds to the domain index and lies within 0.001 of
its rounding", for every rational x and every domain index. -/
theorem junctable_iff_round (x : ℚ) (index : ℕ) :
    junctableFlag x index = true ↔
      (|x - ((round x : ℤ) : ℚ)| < 1 / 1000 ∧ round x = (index : ℤ)) := by
  rw [junctableFlag, decide_eq_true_eq]
  constructor
  · intro h
    rw [abs_lt] at h
    have hr : round x = (index : ℤ) := by
      rw [round_eq]
      apply Int.floor_eq_iff.mpr
      constructor
      · push_cast
        linarith
      · push_cast
        linarith
    refine ⟨?_, hr⟩
    rw [hr]
    push_cast
    rw [abs_lt]
    constructor <;> linarith
  · rintro ⟨h1, h2⟩
    rw [h2] at h1
    push_cast at h1
    exact h1

/-- C9: what compute actually zips for domain i in direction d.  The entry of
the final z container is the iterator installed when domain i was stitched
(its starting value readable from the stage-(i+1) container), advanced by
B * Z_b exactly when domain i is not the last one and d is its right helix
joint - those are the iterators whose first B values the stitching of domain
i+1 consumed.  All other entries still start at their stitched starting
value. -/
theorem z_iterator_consumption (sv : SideView) (i : ℕ) (d : Direction)
    (hi : i < sv.domains.length) :
    (sv.zCoords.getD i default).dget d =
      ⟨(((sv.zUpTo (i + 1)).getD i default).dget d).cur +
        (if i + 1 < sv.domains.length ∧ d = (sv.domains.getD i default).rightJoint then
          (sv.B : ℚ) * sv.Z_b else 0),
        sv.Z_b⟩ := by
  rw [SideView.zCoords]
  exact zUpTo_getD sv sv.domains.length i d hi

/-- C8: compute is a pure function of the domain list and the profile scalars:
two side views that agree on all inputs produce identical point containers. -/
theorem compute_deterministic (sv1 sv2 : SideView)
    (h1 : sv1.domains = sv2.domains) (h2 : sv1.T = sv2.T) (h3 : sv1.B = sv2.B)
    (h4 : sv1.H = sv2.H) (h5 : sv1.Z_s = sv2.Z_s) (h6 : sv1.theta_s = sv2.theta_s)
    (h7 : sv1.theta_b = sv2.theta_b) (h8 : sv1.theta_c = sv2.theta_c) :
    sv1.compute = sv2.compute := by
  have h : sv1 = sv2 := by
    cases sv1
    cases sv2
    simp_all
  rw [h]

/-- The argmax index lies inside the x row as soon as the row is nonempty. -/
lemma maxXIdx_lt (sv : SideView) (i : ℕ) (dom : Domain) (d : Direction)
    (hB : 1 ≤ sv.B) : maxXIdx sv i dom d < sv.B := by
  have hlen : (sv.xRow i dom d).length = sv.B := xRow_length sv i dom d
  have hne : sv.xRow i dom d ≠ [] := by
    intro h
    rw [h] at hlen
    simp at hlen
    omega
  obtain ⟨m, hm⟩ : ∃ m, (sv.xRow i dom d).max? = some m := by
    cases hx : sv.xRow i dom d with
    | nil => exact absurd hx hne
    | cons a l => exact ⟨_, List.max?_cons⟩
  have hmem : m ∈ sv.xRow i dom d := List.max?_mem max_choice hm
  rw [maxXIdx, ← hlen]
  apply List.findIdx_lt_length.mpr
  refine ⟨m, hmem, ?_⟩
  rw [hm]
  simp

/-- The seed z of a later domain is the previous domain's right-joint z value
at the argmax-x index. -/
lemma zSeed_fst (sv : SideView) (acc : List (DirPair QCount)) (index : ℕ)
    (h0 : index ≠ 0) (hB : 1 ≤ sv.B) :
    (zSeed sv acc index).1 =
      ((acc.getD (index - 1) default).dget
          (sv.domains.getD (index - 1) default).rightJoint).nth
        (maxXIdx sv (index - 1) (sv.domains.getD (index - 1) default)
          (sv.domains.getD (index - 1) default).rightJoint) := by
  rw [zSeed]
  simp only [h0, if_false, ite_false]
  rw [QCount.take_fst]
  have hmi := maxXIdx_lt sv (index - 1) (sv.domains.getD (index - 1) default)
    (sv.domains.getD (index - 1) default).rightJoint hB
  rw [maxXIdx] at hmi ⊢
  rw [List.getD_eq_getElem?_getD, List.getElem?_map, List.getElem?_range hmi]
  rfl

/-- C1 (amended): for every i >= 1, the first z value generated for domain i's
left-joint strand is the z value of domain i-1's right-joint strand at the
argmax-x sample index, minus a positive whole number of periods Z_b * B, and
it lies at or below zero.  The two values are congruent modulo the period but
are never equal (the normalization loop always subtracts at least one full
period), contradicting the original equality claim. -/
theorem continuity_modulo_period (sv : SideView) (i : ℕ) (hi1 : 1 ≤ i)
    (hi2 : i < sv.domains.length) (hP : 0 < sv.Z_b * (sv.B : ℚ)) :
    ∃ k : ℕ,
      (((sv.zUpTo (i + 1)).getD i default).dget
          ((sv.domains.getD i default).leftJoint)).cur =
        (((sv.zUpTo i).getD (i - 1) default).dget
            ((sv.domains.getD (i - 1) default).rightJoint)).nth
          (maxXIdx sv (i - 1) (sv.domains.getD (i - 1) default)
            (sv.domains.getD (i - 1) default).rightJoint)
        - ((k : ℚ) + 1) * (sv.Z_b * (sv.B : ℚ)) ∧
      (((sv.zUpTo (i + 1)).getD i default).dget
          ((sv.domains.getD i default).leftJoint)).cur ≤ 0 := by
  have hB : 1 ≤ sv.B := by
    by_contra hb
    have hb0 : sv.B = 0 := by omega
    rw [hb0] at hP
    simp at hP
  have hlen : (sv.zUpTo i).length = i := zUpTo_length sv i
  rw [SideView.zUpTo, zStep_getD_self sv (sv.zUpTo i) i (sv.domains.getD i default)
    ((sv.domains.getD i default).leftJoint) hlen, if_pos rfl]
  rw [zSeed_fst sv (sv.zUpTo i) i (by omega) hB]
  obtain ⟨j, hj⟩ := normLoop_exists (sv.Z_b * (sv.B : ℚ))
    ((((sv.zUpTo i).getD (i - 1) default).dget
        (sv.domains.getD (i - 1) default).rightJoint).nth
      (maxXIdx sv (i - 1) (sv.domains.getD (i - 1) default)
        (sv.domains.getD (i - 1) default).rightJoint))
  have hnp := normLoop_nonpos (sv.Z_b * (sv.B : ℚ))
    ((((sv.zUpTo i).getD (i - 1) default).dget
        (sv.domains.getD (i - 1) default).rightJoint).nth
      (maxXIdx sv (i - 1) (sv.domains.getD (i - 1) default)
        (sv.domains.getD (i - 1) default).rightJoint)) hP
  refine ⟨j, ?_, ?_⟩
  · show normalized _ _ = _
    rw [normalized, hj]
    push_cast
    ring
  · show normalized _ _ ≤ 0
    rw [normalized]
    linarith

/-- C2 (amended): domain 0's raw seed z is 0, and the first generated z of its
zeroed (left-joint) strand after the downward normalization is 0 - Z_b * B:
exactly one full period below zero, not the largest nonpositive value 0 of the
form 0 - k * (Z_b * B) that the original claim states (the loop subtracts once
more after reaching zero). -/
theorem domain_zero_first_z (sv : SideView) (hn : 1 ≤ sv.domains.length) :
    (zSeed sv [] 0).1 = 0 ∧
    (((sv.zUpTo 1).getD 0 default).dget
        ((sv.domains.getD 0 default).leftJoint)).cur =
      0 - sv.Z_b * (sv.B : ℚ) := by
  refine ⟨rfl, ?_⟩
  rw [show (1 : ℕ) = 0 + 1 from rfl, SideView.zUpTo,
    zStep_getD_self sv (sv.zUpTo 0) 0 (sv.domains.getD 0 default)
      ((sv.domains.getD 0 default).leftJoint) rfl, if_pos rfl]
  show normalized (sv.Z_b * (sv.B : ℚ)) (zSeed sv (sv.zUpTo 0) 0).1 = 0 - sv.Z_b * (sv.B : ℚ)
  have h1 : (zSeed sv (sv.zUpTo 0) 0).1 = 0 := rfl
  rw [h1, normalized, normLoop, dif_neg (by rintro ⟨-, hh⟩; exact lt_irrefl 0 hh)]

/-- The x mapping never divides by zero: each branch guard forces its divisor
to be positive, for every input - including degenerate interior angles. -/
lemma xMapE_ok (theta_c : ℚ) (m : ℤ) (index : ℕ) (a : ℚ) :
    xMapE theta_c m index a = .ok (xMap theta_c m index a) := by
  have h0 : 0 ≤ pymod a 360 := pymod_nonneg a 360 (by norm_num)
  have h1 : pymod a 360 < 360 := pymod_lt a 360 (by norm_num)
  rw [xMapE, xMap]
  by_cases hc : pymod a 360 < 360 - (m : ℚ) * theta_c
  · rw [if_pos hc, if_pos hc, divE, if_neg (by intro hz; rw [hz] at hc; linarith)]
    rfl
  · rw [if_neg hc, if_neg hc, divE, if_neg (by intro hz; push_neg at hc; rw [hz] at hc; linarith)]
    rfl

/-- mapM of a function that always succeeds. -/
lemma mapM_ok {α β : Type} (f : α → Except String β) (g : α → β)
    (l : List α) (h : ∀ x ∈ l, f x = .ok (g x)) :
    l.mapM f = .ok (l.map g) := by
  induction l with
  | nil => rfl
  | cons a l ih =>
    rw [List.mapM_cons, h a (by simp), ih (fun x hx => h x (by simp [hx]))]
    rfl

/-- A checked x row always succeeds, with the unchecked row as its value. -/
lemma xRowE_ok (sv : SideView) (index : ℕ) (dom : Domain) (d : Direction) :
    xRowE sv index dom d = .ok (sv.xRow index dom d) := by
  rw [xRowE, SideView.xRow]
  exact mapM_ok _ _ _ (fun x _ => xMapE_ok sv.theta_c dom.theta_interior_multiple index x)

/-- The checked _x_coords always succeeds: the source can never raise a
division error, whatever the domain angles are. -/
lemma xCoordsE_ok (sv : SideView) :
    xCoordsE sv = .ok ((List.range sv.domains.length).map (fun index =>
      ⟨sv.xRow index (sv.domains.getD index default) .up,
        sv.xRow index (sv.domains.getD index default) .down⟩)) := by
  rw [xCoordsE]
  apply mapM_ok
  intro x _
  rw [xRowE_ok, xRowE_ok]
  rfl

/-- With at least one base per turn the stitching max is over a nonempty row
and the checked step delegates to the unchecked one. -/
lemma zStepE_ok (sv : SideView) (acc : List (DirPair QCount)) (index : ℕ)
    (dom : Domain) (hB : 1 ≤ sv.B) :
    zStepE sv acc index dom = .ok (zStep sv acc index dom) := by
  rw [zStepE]
  by_cases h0 : index = 0
  · rw [if_pos h0]
  · rw [if_neg h0]
    have hlen := xRow_length sv (index - 1) (sv.domains.getD (index - 1) default)
      (sv.domains.getD (index - 1) default).rightJoint
    cases hx : sv.xRow (index - 1) (sv.domains.getD (index - 1) default)
        (sv.domains.getD (index - 1) default).rightJoint with
    | nil =>
      rw [hx] at hlen
      simp at hlen
      omega
    | cons a l =>
      rfl

/-- The checked stitching loop succeeds whenever B >= 1. -/
lemma zUpToE_ok (sv : SideView) (hB : 1 ≤ sv.B) (k : ℕ) :
    zUpToE sv k = .ok (sv.zUpTo k) := by
  induction k with
  | zero => rfl
  | succ k ih =>
    rw [zUpToE, ih]
    show zStepE sv (sv.zUpTo k) k (sv.domains.getD k default) = _
    rw [zStepE_ok sv _ k _ hB]
    rfl

/-- C6 (amended): the source performs no configuration validation and never
fails fast.  For every configuration with B >= 1 and Z_b > 0 - including ones
with degenerate interior or exterior angles, which the original claim says
must abort with a structured error - the recomputation raises nothing and
returns the complete points container. -/
theorem no_fail_fast_validation (sv : SideView) (hB : 1 ≤ sv.B) (hZ : 0 < sv.Z_b) :
    computeE sv = .ok sv.compute := by
  rw [computeE, xCoordsE_ok]
  show zUpToE sv sv.domains.length >>= _ = _
  rw [zUpToE_ok sv hB]
  rfl

/-! ### Concrete instances: counterexamples and witnesses -/

/-- C2, counterexample: in the concrete one-domain configuration cfg1 the
first generated z of domain 0's zeroed strand is -1 = 0 - Z_b * B, not 0, the
largest value at or below zero of the form 0 - k * (Z_b * B). -/
theorem domain_zero_first_z_counterexample :
    ¬ (((cfg1.zUpTo 1).getD 0 default).dget
        ((cfg1.domains.getD 0 default).leftJoint)).cur = 0 := by
  have h1 : (((cfg1.zUpTo 1).getD 0 default).dget
      ((cfg1.domains.getD 0 default).leftJoint)).cur = -1 := by
    simp [SideView.zUpTo, zStep, zSeed, normalized, SideView.Z_b, cfg1,
      DirPair.dget, DirPair.dset, inverse]
    rw [normLoop]
    norm_num
  rw [h1]
  norm_num

/-- C2, witness for the amended claim at the concrete configuration cfg1. -/
theorem domain_zero_first_z_witness :
    (zSeed cfg1 [] 0).1 = 0 ∧
    (((cfg1.zUpTo 1).getD 0 default).dget
        ((cfg1.domains.getD 0 default).leftJoint)).cur =
      0 - cfg1.Z_b * (cfg1.B : ℚ) :=
  domain_zero_first_z cfg1 (by decide)

/-- C1, counterexample: in the concrete two-domain configuration cfg2 the
first z generated for domain 1's left-joint strand is -2, while domain 0's
right-joint strand at the argmax-x sample has z = -1; they differ by a full
period Z_b * B = 1, far beyond the claimed 1e-9 tolerance. -/
theorem continuity_counterexample :
    ¬ |(((cfg2.zUpTo 2).getD 1 default).dget
          ((cfg2.domains.getD 1 default).leftJoint)).cur -
        (((cfg2.zUpTo 1).getD 0 default).dget
            ((cfg2.domains.getD 0 default).rightJoint)).nth
          (maxXIdx cfg2 0 (cfg2.domains.getD 0 default)
            ((cfg2.domains.getD 0 default).rightJoint))|
      < 1 / 1000000000 := by
  have h1 : (((cfg2.zUpTo 2).getD 1 default).dget
      ((cfg2.domains.getD 1 default).leftJoint)).cur = -2 := by
    simp [SideView.zUpTo, zStep, zSeed, normalized, SideView.Z_b, cfg2,
      DirPair.dget, DirPair.dset, inverse, QCount.take, QCount.next, QCount.nth,
      SideView.xRow, SideView.anglesFor, xMap, pymod, maxXIdx, cycleGet]
    rw [normLoop]
    norm_num
    rw [normLoop]
    norm_num [List.findIdx, List.findIdx.go]
  have h2 : (((cfg2.zUpTo 1).getD 0 default).dget
      ((cfg2.domains.getD 0 default).rightJoint)).nth
        (maxXIdx cfg2 0 (cfg2.domains.getD 0 default)
          ((cfg2.domains.getD 0 default).rightJoint)) = -1 := by
    simp [SideView.zUpTo, zStep, zSeed, normalized, SideView.Z_b, cfg2,
      DirPair.dget, DirPair.dset, inverse, QCount.take, QCount.next, QCount.nth,
      SideView.xRow, SideView.anglesFor, xMap, pymod, maxXIdx, cycleGet,
      List.findIdx, List.findIdx.go]
    rw [normLoop]
    norm_num
  rw [h1, h2]
  norm_num

/-- C1, witness for the amended claim at the concrete configuration cfg2. -/
theorem continuity_modulo_period_witness :
    ∃ k : ℕ,
      (((cfg2.zUpTo (1 + 1)).getD 1 default).dget
          ((cfg2.domains.getD 1 default).leftJoint)).cur =
        (((cfg2.zUpTo 1).getD (1 - 1) default).dget
            ((cfg2.domains.getD (1 - 1) default).rightJoint)).nth
          (maxXIdx cfg2 (1 - 1) (cfg2.domains.getD (1 - 1) default)
            ((cfg2.domains.getD (1 - 1) default).rightJoint))
        - ((k : ℚ) + 1) * (cfg2.Z_b * (cfg2.B : ℚ)) ∧
      (((cfg2.zUpTo (1 + 1)).getD 1 default).dget
          ((cfg2.domains.getD 1 default).leftJoint)).cur ≤ 0 :=
  continuity_modulo_period cfg2 1 (by decide) (by decide)
    (by norm_num [cfg2, SideView.Z_b])

/-- C6, counterexample: the degenerate configuration cfgDeg has exterior angle
zero, which the claim says must abort with a structured error; instead the
checked recomputation succeeds and returns a container. -/
theorem degenerate_config_does_not_abort : (computeE cfgDeg).isOk = true := by
  have h1 := xCoordsE_ok cfgDeg
  have h2 := zUpToE_ok cfgDeg (by norm_num [cfgDeg]) cfgDeg.domains.length
  rw [computeE, h1, h2]
  rfl

/-- C6, witness for the amended claim at the concrete configuration cfg2. -/
theorem no_fail_fast_validation_witness : computeE cfg2 = .ok cfg2.compute :=
  no_fail_fast_validation cfg2 (by decide) (by norm_num [cfg2, SideView.Z_b])

/-- C3, witness at the concrete configuration cfg2, domain 0, direction up. -/
theorem compute_skips_and_count_witness :
    (cfg2.computeEntry 0 (cfg2.domains.getD 0 default) .up).length =
      (cfg2.domains.getD 0 default).count ∧
    (∀ p ∈ cfg2.computeEntry 0 (cfg2.domains.getD 0 default) .up, 0 ≤ p.z_coord) ∧
    (cfg2.computeEntry 0
      ⟨(cfg2.domains.getD 0 default).theta_interior_multiple,
        (cfg2.domains.getD 0 default).leftJoint,
        (cfg2.domains.getD 0 default).rightJoint,
        (cfg2.computeEntry 0 (cfg2.domains.getD 0 default) .up).length⟩ .up).length =
      (cfg2.computeEntry 0 (cfg2.domains.getD 0 default) .up).length := by
  obtain ⟨N, h1, h2, h3, h4, h5⟩ := compute_skips_negatives_and_emits_count cfg2 0
    (cfg2.domains.getD 0 default) .up (by decide)
    (by norm_num [cfg2, SideView.Z_b]) (by decide)
  exact ⟨h3, h4, h5⟩

/-- C10, witness at the concrete configuration cfg2. -/
theorem compute_terminates_witness :
    (∃ j : ℕ,
      normLoop (cfg2.Z_b * (cfg2.B : ℚ)) 5 = 5 - (j : ℚ) * (cfg2.Z_b * (cfg2.B : ℚ)) ∧
      normLoop (cfg2.Z_b * (cfg2.B : ℚ)) 5 ≤ 0) ∧
    (cfg2.computeEntry 0 (cfg2.domains.getD 0 default) .up).length =
      (cfg2.domains.getD 0 default).count :=
  ⟨(compute_terminates cfg2 (by decide) (by norm_num [cfg2, SideView.Z_b])).1 5,
    (compute_terminates cfg2 (by decide) (by norm_num [cfg2, SideView.Z_b])).2 0
      (cfg2.domains.getD 0 default) .up (by decide)⟩

/-- C4, witness at the concrete configuration cfg2, domain 0, angle 77. -/
theorem x_coords_in_unit_interval_witness :
    ((0 : ℕ) : ℚ) ≤ xMap cfg2.theta_c
        (cfg2.domains.getD 0 default).theta_interior_multiple 0 77 ∧
      xMap cfg2.theta_c
        (cfg2.domains.getD 0 default).theta_interior_multiple 0 77 ≤ ((0 : ℕ) : ℚ) + 1 :=
  (x_coords_in_unit_interval cfg2 0 (cfg2.domains.getD 0 default)
    (by norm_num [cfg2]) (by norm_num [cfg2])).1 77

/-- C9, witness at the concrete configuration cfg2, domain 0, direction up
(the consumed iterator: domain 0 is not last and up is its right joint). -/
theorem z_iterator_consumption_witness :
    (cfg2.zCoords.getD 0 default).dget .up =
      ⟨(((cfg2.zUpTo (0 + 1)).getD 0 default).dget .up).cur +
        (if 0 + 1 < cfg2.domains.length ∧
            Direction.up = (cfg2.domains.getD 0 default).rightJoint then
          (cfg2.B : ℚ) * cfg2.Z_b else 0),
        cfg2.Z_b⟩ :=
  z_iterator_consumption cfg2 0 .up (by decide)

/-- C8, witness: two identical concrete side views compute the same output. -/
theorem compute_deterministic_witness : cfg2.compute = cfg2.compute :=
  compute_deterministic cfg2 cfg2 rfl rfl rfl rfl rfl rfl rfl rfl
